import Mathlib

/-!
Verification of the streaming column-alignment formatter (package `table`).

The development shallowly embeds the Go sources:
* `table.go` (root package `go.senan.xyz/table`): `Writer`, `Write`, `addLine`,
  `Flush`, `reset`, `formatRow`, `RowError`, `strWidth` with the ANSI escape
  regular expression;
* `table/table.go` (subpackage): its `Writer.Flush` separator handling and its
  `formatRow` variant.

Strings are modelled as `List Char`; all input in the proofs is ASCII, where a
byte of the Go `[]byte` corresponds to one `Char`.  Recursion that Go expresses
as loops over a shrinking buffer is modelled with an explicit fuel argument
always called with enough fuel; this keeps every definition executable by the
kernel.
-/

namespace Table

/-! ### Character classes of the ANSI escape regular expression

The Go code compiles
`[\x1B\x9B][[\]()#;?]*(?:(?:(?:[a-zA-Z\d]*(?:;[a-zA-Z\d]*)*)?\x07)|(?:(?:\d{1,4}(?:;\d{0,4})*)?[\dA-PRZcf-ntqry=><~]))`
once and uses `ReplaceAllString(str, "")`.  Each bracket class below is one of
the character classes of that pattern, written over code points. -/

def isCsiIntro (c : Char) : Bool := c.toNat = 0x1B || c.toNat = 0x9B

/-- The class `[[\]()#;?]` following the introducer. -/
def isCls1 (c : Char) : Bool :=
  c.toNat = 0x5B || c.toNat = 0x5D || c.toNat = 0x28 || c.toNat = 0x29 ||
  c.toNat = 0x23 || c.toNat = 0x3B || c.toNat = 0x3F

/-- The class `\d` (Go regexp: ASCII digits). -/
def isDigitC (c : Char) : Bool := 0x30 ≤ c.toNat && c.toNat ≤ 0x39

/-- The class `[a-zA-Z\d]` used in the bell-terminated alternative. -/
def isAlnumGo (c : Char) : Bool :=
  (0x41 ≤ c.toNat && c.toNat ≤ 0x5A) || (0x61 ≤ c.toNat && c.toNat ≤ 0x7A) || isDigitC c

/-- The final-byte class `[\dA-PRZcf-ntqry=><~]`. -/
def isFinalByte (c : Char) : Bool :=
  isDigitC c || (0x41 ≤ c.toNat && c.toNat ≤ 0x50) ||
  c.toNat = 0x52 || c.toNat = 0x5A || c.toNat = 0x63 ||
  (0x66 ≤ c.toNat && c.toNat ≤ 0x6E) ||
  c.toNat = 0x74 || c.toNat = 0x71 || c.toNat = 0x72 || c.toNat = 0x79 ||
  c.toNat = 0x3D || c.toNat = 0x3E || c.toNat = 0x3C || c.toNat = 0x7E

def belChar : Char := Char.ofNat 7

/-! ### A faithful matcher for the compiled pattern

Go's `regexp` (non-POSIX) returns, at the leftmost position where any match
starts, the match a backtracking search would find first: alternatives are
tried left to right and repetitions are greedy.  The functions below enumerate,
in exactly that preference order, the possible *remainders* (suffixes after the
candidate match); the head of the enumeration is the remainder of the match
that `ReplaceAllString` removes. -/

/-- Remainders of a greedy `p*` over a character class: longest run first. -/
def starClsCands (p : Char → Bool) (s : List Char) : List (List Char) :=
  let run := (s.takeWhile p).length
  (List.range (run + 1)).map (fun j => s.drop (run - j))

/-- Remainders of `(?:;[a-zA-Z\d]*)*`, greedy, in backtracking order. -/
def semiAlnumStar : Nat → List Char → List (List Char)
  | 0, s => [s]
  | n + 1, s =>
    match s with
    | c :: rest =>
      if c.toNat = 0x3B then
        (((starClsCands isAlnumGo rest).map (fun r => semiAlnumStar n r)).flatten) ++ [s]
      else [s]
    | [] => [s]

/-- Successful remainders of the first alternative
`(?:(?:[a-zA-Z\d]*(?:;[a-zA-Z\d]*)*)?\x07)`, in backtracking order. -/
def altA (s : List Char) : List (List Char) :=
  (((starClsCands isAlnumGo s).map (fun r =>
      (semiAlnumStar r.length r).filterMap (fun t =>
        match t with
        | c :: rest => if c = belChar then some rest else none
        | [] => none))).flatten) ++
  (match s with
   | c :: rest => if c = belChar then [rest] else []
   | [] => [])

/-- Remainders of `(?:;\d{0,4})*`, greedy, in backtracking order. -/
def semiDigitsStar : Nat → List Char → List (List Char)
  | 0, s => [s]
  | n + 1, s =>
    match s with
    | c :: rest =>
      if c.toNat = 0x3B then
        let m := min 4 (rest.takeWhile isDigitC).length
        (((List.range (m + 1)).map (fun j => semiDigitsStar n (rest.drop (m - j)))).flatten) ++ [s]
      else [s]
    | [] => [s]

/-- Consume one final-class byte, if present. -/
def finalCheck : List Char → List (List Char)
  | c :: rest => if isFinalByte c then [rest] else []
  | [] => []

/-- Successful remainders of the second alternative
`(?:(?:\d{1,4}(?:;\d{0,4})*)?[\dA-PRZcf-ntqry=><~])`, in backtracking order:
the optional group present with a greedy `\d{1,4}` first, then absent. -/
def altB (s : List Char) : List (List Char) :=
  (let m := min 4 (s.takeWhile isDigitC).length
   ((List.range m).map (fun j =>
      ((semiDigitsStar s.length (s.drop (m - j))).map finalCheck).flatten)).flatten) ++
  finalCheck s

/-- Leftmost-first match of the whole pattern at the head of `s`: `some rest`
is the suffix after the preferred match. -/
def matchEsc (s : List Char) : Option (List Char) :=
  match s with
  | c :: rest =>
    if isCsiIntro c then
      (((starClsCands isCls1 rest).map (fun r1 => altA r1 ++ altB r1)).flatten).head?
    else none
  | [] => none

/-- `ansiEscExpr.ReplaceAllString(str, "")`: repeatedly delete the leftmost
preferred match.  Fuel is always sufficient: a step keeps one character or
deletes at least two. -/
def stripAnsiFuel : Nat → List Char → List Char
  | 0, s => s
  | _ + 1, [] => []
  | n + 1, c :: cs =>
    match matchEsc (c :: cs) with
    | some rest => stripAnsiFuel n rest
    | none => c :: stripAnsiFuel n cs

def stripAnsi (s : List Char) : List Char := stripAnsiFuel (s.length + 1) s

/-- Modelled from the spec: the display-width measurement delegated to the
`github.com/rivo/uniseg` dependency, whose source is not part of this
repository.  Per the spec (§4.3) text is measured in terminal display cells;
for the ASCII and Latin-1 range used throughout the proofs a control character
(C0, DEL, C1) occupies zero cells and any other character one cell. -/
def uniWidth1 (c : Char) : Nat :=
  if c.toNat < 0x20 ∨ (0x7F ≤ c.toNat ∧ c.toNat ≤ 0x9F) then 0 else 1

def uniWidth (s : List Char) : Nat := (s.map uniWidth1).sum

/-- `strWidth` from `table.go`: strip ANSI escapes, then measure. -/
def strWidth (s : List Char) : Nat := uniWidth (stripAnsi s)

/-! ### Row parsing: `strings.Split(line, "\t")` and `strings.TrimSpace` -/

/-- `strings.Split(line, "\t")`; always returns at least one field. -/
def splitOnTab : List Char → List (List Char)
  | [] => [[]]
  | c :: cs =>
    if c = '\t' then [] :: splitOnTab cs
    else
      match splitOnTab cs with
      | f :: rest => (c :: f) :: rest
      | [] => [[c]]

/-- `unicode.IsSpace` for the code points reachable in this development
(ASCII space classes plus NEL and NBSP). -/
def isSpaceGo (c : Char) : Bool :=
  c.toNat = 0x20 || c.toNat = 0x09 || c.toNat = 0x0A || c.toNat = 0x0B ||
  c.toNat = 0x0C || c.toNat = 0x0D || c.toNat = 0x85 || c.toNat = 0xA0

/-- `strings.TrimSpace`. -/
def trimSpace (s : List Char) : List Char :=
  ((s.dropWhile isSpaceGo).reverse.dropWhile isSpaceGo).reverse

/-! ### The root-package `Writer` (`table.go`) -/

/-- `RowError{Want, Got, Line}`. -/
structure RowErr where
  want : Nat
  got : Nat
  line : Nat
deriving DecidableEq, Repr

/-- The mutable fields of `Writer` (the output sink is modelled by returning
rendered lines from `flush`). -/
structure WState where
  buf : List Char
  pre : List Char
  sep : List Char
  suff : List Char
  widths : Option (List Nat)
  rows : List (List (List Char))
  err : Option RowErr
  lineNum : Nat
deriving DecidableEq, Repr

/-- `New(out)`: zero-valued fields, empty buffer. -/
def mkWriter : WState :=
  { buf := [], pre := [], sep := [], suff := [],
    widths := none, rows := [], err := none, lineNum := 0 }

/-- `Writer.addLine`: split on tab, trim fields, establish or check the column
count, merge widths, buffer the row.  The returned error is the `RowError` of a
column-count mismatch. -/
def addLine (st : WState) (line : List Char) (lineNum : Nat) : WState × Option RowErr :=
  let cols := (splitOnTab line).map trimSpace
  let ws := st.widths.getD (List.replicate cols.length 0)
  if cols.length ≠ ws.length then
    ({ st with widths := some ws }, some ⟨ws.length, cols.length, lineNum⟩)
  else
    ({ st with widths := some (List.zipWith Nat.max ws (cols.map strWidth)),
               rows := st.rows ++ [cols] }, none)

/-- Strip one trailing carriage return (`handle \r\n` in `Write`). -/
def stripCR (l : List Char) : List Char :=
  if l.getLast? = some '\r' then l.dropLast else l

/-- `bytes.IndexByte(buf, '\n')` split: the part before the first newline and
the part after it. -/
def splitFirstNL : List Char → Option (List Char × List Char)
  | [] => none
  | c :: cs =>
    if c = '\n' then some ([], cs)
    else (splitFirstNL cs).map (fun p => (c :: p.1, p.2))

/-- `if err := w.addLine(...); err != nil && w.err == nil { w.err = err }`:
keep only the first recorded error. -/
def recordErr (p : WState × Option RowErr) : WState :=
  match p.2 with
  | some e => if p.1.err = none then { p.1 with err := some e } else p.1
  | none => p.1

/-- One iteration of the `Write` loop: pop the first complete line from the
buffer, bump the line counter, add the line, record a first error. -/
def ingestStep (st : WState) (l : List Char) : WState :=
  recordErr (addLine { st with lineNum := st.lineNum + 1 } (stripCR l) (st.lineNum + 1))

/-- The `for { ... }` loop of `Write`, with fuel bounding the number of
consumed newlines. -/
def processBufFuel : Nat → WState → WState
  | 0, st => st
  | n + 1, st =>
    match splitFirstNL st.buf with
    | none => st
    | some (l, r) => processBufFuel n (ingestStep { st with buf := r } l)

/-- `Writer.Write(p)`: append `p`, consume complete lines, return
`(len(p), nil)`. -/
def goWrite (st : WState) (p : List Char) : WState × Nat × Option RowErr :=
  let st1 : WState := { st with buf := st.buf ++ p }
  (processBufFuel (st1.buf.length + 1) st1, p.length, none)

/-- `formatRow`'s loop body over the columns, carrying the running index.
A column other than the last (`i < len(widths)-1`) is right-padded to
`widths[i]` display cells. -/
def formatCols (widths : List Nat) (sep : List Char) : Nat → List (List Char) → List Char
  | _, [] => []
  | i, col :: rest =>
    (if i ≠ 0 then sep else []) ++ col ++
    (if i + 1 < widths.length then List.replicate (widths.getD i 0 - strWidth col) ' ' else []) ++
    formatCols widths sep (i + 1) rest

/-- `formatRow(row, widths, pre, sep, suff)` from `table.go`: the last column
is padded only when a non-empty suffix is configured. -/
def formatRowGo (row : List (List Char)) (widths : List Nat) (pre sep suff : List Char) :
    List Char :=
  pre ++ formatCols widths sep 0 row ++
  (if suff = [] then []
   else
     List.replicate (widths.getD (widths.length - 1) 0 -
       strWidth (row.getD (row.length - 1) [])) ' ' ++ suff)

/-- `Writer.reset`: clear rows, widths, error and line counter (the byte
buffer of an unfinished line is kept). -/
def resetState (st : WState) : WState :=
  { buf := st.buf, pre := st.pre, sep := st.sep, suff := st.suff,
    widths := none, rows := [], err := none, lineNum := 0 }

/-- `Writer.Flush`: render all buffered rows (the sink in this model never
fails), then reset; the result is the first error recorded during `Write`. -/
def flush (st : WState) : WState × List (List Char) × Option RowErr :=
  if st.rows = [] then (resetState st, [], st.err)
  else
    (resetState st,
     st.rows.map (fun row => formatRowGo row (st.widths.getD []) st.pre st.sep st.suff),
     st.err)

end Table

namespace Table

/-! ### The subpackage `Writer` (`table/table.go`)

The subpackage variant differs from the root package in the separator handling
of `Flush` (a configured separator is wrapped in spaces) and in `formatRow`
(every column, the last included, is padded; the suffix is always appended). -/

/-- `ColumnCountError{Want, Got}`. -/
structure CCErr where
  want : Nat
  got : Nat
deriving DecidableEq, Repr

/-- Mutable fields of the subpackage `Writer`. -/
structure TblState where
  buf : List Char
  pre : List Char
  sep : List Char
  suff : List Char
  widths : Option (List Nat)
  rows : List (List (List Char))
  err : Option CCErr
deriving DecidableEq, Repr

/-- The column loop of the subpackage `formatRow`: pads whenever
`i < len(widths)`, so the last column is padded too. -/
def formatColsTbl (widths : List Nat) (sep : List Char) : Nat → List (List Char) → List Char
  | _, [] => []
  | i, col :: rest =>
    (if i ≠ 0 then sep else []) ++ col ++
    (if i < widths.length then List.replicate (widths.getD i 0 - strWidth col) ' ' else []) ++
    formatColsTbl widths sep (i + 1) rest

/-- The subpackage `formatRow`: suffix appended unconditionally. -/
def formatRowTbl (row : List (List Char)) (widths : List Nat) (pre sep suff : List Char) :
    List Char :=
  pre ++ formatColsTbl widths sep 0 row ++ suff

/-- The separator computation at the top of the subpackage `Flush`:
`sep := " "` by default, `" " + w.sep + " "` when one is configured. -/
def flushSepTbl (sep : List Char) : List Char :=
  if sep = [] then [' '] else [' '] ++ sep ++ [' ']

def tblResetState (st : TblState) : TblState :=
  { buf := st.buf, pre := st.pre, sep := st.sep, suff := st.suff,
    widths := none, rows := [], err := none }

/-- The subpackage `Writer.Flush` (sink never fails in this model). -/
def tblFlush (st : TblState) : TblState × List (List Char) × Option CCErr :=
  if st.rows = [] then (tblResetState st, [], st.err)
  else
    (tblResetState st,
     st.rows.map (fun row =>
       formatRowTbl row (st.widths.getD []) st.pre (flushSepTbl st.sep) st.suff),
     st.err)

/-! ### Spec-side escape removal -/

/-- Modelled from the spec: §4.3 asks to remove "CSI and OSC-style sequences
terminated by a bell or a final byte in a defined class"; for a CSI sequence
the ANSI final-byte class is `0x40`–`0x7E` and everything between the
introducer (with its optional `[`) and the final byte is parameter or
intermediate bytes in `0x20`–`0x3F`.  This definition exists only to compare
the regex-based stripping of the code with that description. -/
def specStripFuel : Nat → List Char → List Char
  | 0, s => s
  | _ + 1, [] => []
  | n + 1, c :: cs =>
    if isCsiIntro c then
      let body := if cs.head? = some '[' then cs.tail else cs
      let ps := body.dropWhile (fun d => decide (0x20 ≤ d.toNat ∧ d.toNat ≤ 0x3F))
      match ps with
      | t :: r =>
        if (0x40 ≤ t.toNat ∧ t.toNat ≤ 0x7E) ∨ t = belChar then specStripFuel n r
        else specStripFuel n ps
      | [] => []
    else c :: specStripFuel n cs

def specStrip (s : List Char) : List Char := specStripFuel (s.length + 1) s

/-! ### Basic facts about `splitOnTab` -/

theorem splitOnTab_ne_nil (l : List Char) : splitOnTab l ≠ [] := by
  induction l with
  | nil => simp [splitOnTab]
  | cons c cs ih =>
    simp only [splitOnTab]
    split
    · simp
    · cases h : splitOnTab cs with
      | nil => exact absurd h ih
      | cons f rest => simp

theorem splitOnTab_len_two (l : List Char) (h : '\t' ∈ l) :
    2 ≤ (splitOnTab l).length := by
  induction l with
  | nil => cases h
  | cons c cs ih =>
    simp only [splitOnTab]
    by_cases hc : c = '\t'
    · simp only [if_pos hc, List.length_cons]
      have := splitOnTab_ne_nil cs
      cases hs : splitOnTab cs with
      | nil => exact absurd hs this
      | cons f rest => simp
    · have hmem : '\t' ∈ cs := by
        cases List.mem_cons.mp h with
        | inl h' => exact absurd h'.symm hc
        | inr h' => exact h'
      simp only [if_neg hc]
      cases hs : splitOnTab cs with
      | nil => exact absurd hs (splitOnTab_ne_nil cs)
      | cons f rest =>
        have := ih hmem
        rw [hs] at this
        simpa using this

end Table

namespace Table

/-! ### Shared lemmas about `addLine` and `flush` -/

theorem addLine_mismatch (st : WState) (line : List Char) (n : Nat) (ws : List Nat)
    (hw : st.widths = some ws)
    (hne : (splitOnTab line).length ≠ ws.length) :
    addLine st line n = (st, some ⟨ws.length, (splitOnTab line).length, n⟩) := by
  have hst : { st with widths := some ws } = st := by
    cases st
    simp_all
  unfold addLine
  rw [hw]
  simp only [Option.getD_some, List.length_map]
  rw [if_pos hne, hst]

theorem flush_fst (st : WState) : (flush st).1 = resetState st := by
  unfold flush
  split <;> rfl

end Table

namespace Table

/-- C1: with empty prefix, a single-space separator and empty suffix, ingesting
the two tab-joined lines `"\tb\tc!"` and `"aaaa\tb\tc"` and flushing yields the
column width vector 4, 1, 2 and exactly the newline-terminated output lines
`"     b c!"` and `"aaaa b c"`, in input order. -/
theorem c1_scenario : 
    ((goWrite { mkWriter with sep := [' '] } ( "\tb\tc!\naaaa\tb\tc\n".toList)).1.widths
      = some [4, 1, 2]) ∧
    ((flush (goWrite { mkWriter with sep := [' '] } ( "\tb\tc!\naaaa\tb\tc\n".toList)).1).2.1
      = [ "     b c!".toList, "aaaa b c".toList ]) ∧
    (((flush (goWrite { mkWriter with sep := [' '] } ( "\tb\tc!\naaaa\tb\tc\n".toList)).1).2.1.map
        (fun l => l ++ [ '\n' ])).flatten = "     b c!\naaaa b c\n".toList) := by
  decide

/-- C2 counterexample: after a 3-column first row and the 2-column rows
`"1\t2"` and `"3\t4"`, the line-3 mismatch does produce a Row Error
`⟨3, 2, 3⟩`, but the writer records only the first one, and `Flush` returns
exactly the single Row Error `⟨3, 2, 2⟩` — not a combined failure holding both. -/
theorem c2_counterexample :
    ((addLine (goWrite { mkWriter with sep := [' '] } ( "\tb\tc!\n1\t2\n3\t4\n".toList)).1
        ( "3\t4".toList) 3).2 = some ⟨3, 2, 3⟩) ∧
    ((goWrite { mkWriter with sep := [' '] } ( "\tb\tc!\n1\t2\n3\t4\n".toList)).1.err
      = some ⟨3, 2, 2⟩) ∧
    ((flush (goWrite { mkWriter with sep := [' '] } ( "\tb\tc!\n1\t2\n3\t4\n".toList)).1).2.2
      = some ⟨3, 2, 2⟩) ∧
    ((flush (goWrite { mkWriter with sep := [' '] } ( "\tb\tc!\n1\t2\n3\t4\n".toList)).1).2.2
      ≠ some ⟨3, 2, 3⟩) := by
  decide

/-- C2 (amended): the writer keeps only the first Row Error of a batch; in the
scenario, Flush renders the single matching row and returns exactly one Row
Error with expected 3, actual 2, at line 2; the line-3 error is discarded. -/
theorem c2_amended :
    flush (goWrite { mkWriter with sep := [' '] } ( "\tb\tc!\n1\t2\n3\t4\n".toList)).1
      = (resetState (goWrite { mkWriter with sep := [' '] } ( "\tb\tc!\n1\t2\n3\t4\n".toList)).1,
         [ " b c!".toList ], some ⟨3, 2, 2⟩) := by
  decide

/-- C4 counterexample: the root-package `Writer` passes the configured
separator to `formatRow` verbatim: with separator `"|"` the rendered line is
`"a|b"`, not `"a | b"` as the claim's `" " + separator + " "` rule predicts. -/
theorem c4_counterexample :
    ((flush (goWrite { mkWriter with sep := [ '|' ] } ( "a\tb\n".toList)).1).2.1
      = [ "a|b".toList ]) ∧
    "a|b".toList ≠ "a | b".toList := by
  decide

/-- C4 (amended): the space-wrapping rule holds for the subpackage `Writer`
(`table/table.go`): its `Flush` renders with `" " + separator + " "` between
fields when a separator is configured and a single space otherwise, while the
root-package `Writer` inserts the configured separator bytes verbatim. -/
theorem c4_amended (st : TblState) (h : st.sep ≠ []) :
    flushSepTbl st.sep = [' '] ++ st.sep ++ [' '] ∧
    flushSepTbl [] = [' '] ∧
    ((tblFlush st).2.1 = st.rows.map (fun row =>
        formatRowTbl row (st.widths.getD []) st.pre (flushSepTbl st.sep) st.suff)) ∧
    (formatRowTbl [ "a".toList, "b".toList, "c".toList ] [1, 1, 1] []
        (flushSepTbl ( "|".toList)) [] = "a | b | c".toList) := by
  refine ⟨by simp [flushSepTbl, h], by decide, ?_, by decide⟩
  unfold tblFlush
  split
  · rename_i hrows
    rw [hrows]
    rfl
  · rfl

/-- A concrete subpackage writer state used as the C4 witness input. -/
def c4DemoState : TblState :=
  { buf := [], pre := [], sep := [ '|' ], suff := [], widths := some [1, 1],
    rows := [[ [ 'a' ], [ 'b' ] ]], err := none }

/-- C4 amended, witness at a concrete subpackage writer state. -/
theorem c4_amended_witness :
    c4DemoState.sep ≠ [] ∧
    (flushSepTbl c4DemoState.sep = [' '] ++ c4DemoState.sep ++ [' '] ∧
     flushSepTbl [] = [' '] ∧
     ((tblFlush c4DemoState).2.1 = c4DemoState.rows.map (fun row =>
        formatRowTbl row (c4DemoState.widths.getD []) c4DemoState.pre
          (flushSepTbl c4DemoState.sep) c4DemoState.suff)) ∧
     (formatRowTbl [ "a".toList, "b".toList, "c".toList ] [1, 1, 1] []
         (flushSepTbl ( "|".toList)) [] = "a | b | c".toList)) :=
  ⟨by decide, c4_amended c4DemoState (by decide)⟩

/-- C7 counterexample: the string `"\x1b[12345m"` is a single CSI sequence
terminated by the final byte `m`, so with all escape sequences removed it is
empty and has display width 0; but the code's regex only consumes up to four
digits, leaving the residue `"m"`, and `strWidth` measures 1. -/
theorem c7_counterexample :
    strWidth ( "\x1b[12345m".toList) = 1 ∧
    specStrip ( "\x1b[12345m".toList) = [] ∧
    uniWidth (specStrip ( "\x1b[12345m".toList)) = 0 ∧
    strWidth ( "\x1b[12345m".toList) ≠ uniWidth (specStrip ( "\x1b[12345m".toList)) := by
  decide

/-- C9: flushing with an empty pending-rows buffer writes no output lines and
returns exactly the recorded error state; a fresh writer flushes to no output
and no error, and flushing it twice gives no output and no error both times. -/
theorem c9_empty_flush (st : WState) (pre sep suff : List Char) (h : st.rows = []) :
    flush st = (resetState st, [], st.err) ∧
    flush { mkWriter with pre := pre, sep := sep, suff := suff }
      = ({ mkWriter with pre := pre, sep := sep, suff := suff }, [], none) ∧
    flush (flush { mkWriter with pre := pre, sep := sep, suff := suff }).1
      = ({ mkWriter with pre := pre, sep := sep, suff := suff }, [], none) := by
  refine ⟨?_, ?_, ?_⟩
  · unfold flush
    rw [if_pos h]
  · rfl
  · rfl

/-- C9 witness at the fresh writer. -/
theorem c9_empty_flush_witness :
    mkWriter.rows = [] ∧
    (flush mkWriter = (resetState mkWriter, [], mkWriter.err) ∧
     flush { mkWriter with pre := [], sep := [], suff := [] }
       = ({ mkWriter with pre := [], sep := [], suff := [] }, [], none) ∧
     flush (flush { mkWriter with pre := [], sep := [], suff := [] }).1
       = ({ mkWriter with pre := [], sep := [], suff := [] }, [], none)) :=
  ⟨rfl, c9_empty_flush mkWriter [] [] [] rfl⟩

/-- C10: a batch whose first ingested line is empty establishes a single
column of width 0, buffers the one-field empty row, renders it as an empty
output line under the default options, and rejects every later line that
contains a tab with a Row Error carrying expected 1. -/
theorem c10_empty_first_line (line : List Char) (h : '\t' ∈ line) :
    ((goWrite mkWriter ( "\n".toList)).1.widths = some [0]) ∧
    ((goWrite mkWriter ( "\n".toList)).1.rows = [[[]]]) ∧
    ((flush (goWrite mkWriter ( "\n".toList)).1).2.1 = [[]]) ∧
    (addLine (goWrite mkWriter ( "\n".toList)).1 line 2
      = ((goWrite mkWriter ( "\n".toList)).1,
         some ⟨1, (splitOnTab line).length, 2⟩)) ∧
    2 ≤ (splitOnTab line).length := by
  have hlen := splitOnTab_len_two line h
  refine ⟨by decide, by decide, by decide, ?_, hlen⟩
  exact addLine_mismatch _ line 2 [0] (by decide)
    (by simp only [List.length_singleton]; omega)

/-- C10 witness at the concrete line `"a\tb"`. -/
theorem c10_empty_first_line_witness :
    '\t' ∈ ( "a\tb".toList) ∧
    (addLine (goWrite mkWriter ( "\n".toList)).1 ( "a\tb".toList) 2
      = ((goWrite mkWriter ( "\n".toList)).1, some ⟨1, 2, 2⟩)) :=
  ⟨by decide, by
    have := (c10_empty_first_line ( "a\tb".toList) (by decide)).2.2.2.1
    simpa using this⟩

/-- C5: after Flush the pending rows, widths, recorded error and line counter
are cleared, so the post-Flush state — and hence the next batch's output —
depends only on the format options and the retained byte tail; concretely,
batch 2 of scenario B renders with its own widths. -/
theorem c5_reset_independent (s1 s2 : WState)
    (h1 : s1.pre = s2.pre) (h2 : s1.sep = s2.sep) (h3 : s1.suff = s2.suff)
    (h4 : s1.buf = s2.buf) :
    (flush s1).1 = (flush s2).1 ∧
    ((flush ((goWrite
        ((flush ((goWrite { mkWriter with sep := [' '] }
            ( "\tb\tc!\naaaa\tb\tc\n".toList)).1)).1)
        ( "a\tbbbbbbbbbbb\tc\n\t\tc\n".toList)).1)).2.1
      = [ "a bbbbbbbbbbb c".toList, "              c".toList ]) := by
  constructor
  · rw [flush_fst, flush_fst]
    unfold resetState
    rw [h1, h2, h3, h4]
  · decide

/-- C5 witness at two concrete states sharing options and buffer. -/
theorem c5_reset_independent_witness :
    ((flush { mkWriter with widths := some [7], rows := [[ [ 'x' ]]] }).1
      = (flush { mkWriter with err := some ⟨3, 2, 1⟩, lineNum := 9 }).1) ∧
    ((flush ((goWrite
        ((flush ((goWrite { mkWriter with sep := [' '] }
            ( "\tb\tc!\naaaa\tb\tc\n".toList)).1)).1)
        ( "a\tbbbbbbbbbbb\tc\n\t\tc\n".toList)).1)).2.1
      = [ "a bbbbbbbbbbb c".toList, "              c".toList ]) :=
  c5_reset_independent { mkWriter with widths := some [7], rows := [[ [ 'x' ]]] }
    { mkWriter with err := some ⟨3, 2, 1⟩, lineNum := 9 } rfl rfl rfl rfl

end Table

namespace Table

/-- Unfolding `formatRow`'s column loop at the last column: the chunk for the
final field carries a separator (unless it is also the first) and a pad that is
emitted only when its index is not the last `widths` position. -/
theorem formatCols_append_last (widths : List Nat) (sep : List Char)
    (row0 : List (List Char)) (last : List Char) : ∀ i : Nat,
    formatCols widths sep i (row0 ++ [last])
      = formatCols widths sep i row0 ++
        ((if i + row0.length ≠ 0 then sep else []) ++ last ++
         (if i + row0.length + 1 < widths.length then
            List.replicate (widths.getD (i + row0.length) 0 - strWidth last) ' '
          else [])) := by
  induction row0 with
  | nil =>
    intro i
    simp [formatCols]
  | cons c cs ih =>
    intro i
    simp only [List.cons_append, formatCols, List.length_cons, List.append_eq]
    rw [ih (i + 1)]
    have h1 : i + 1 + cs.length = i + (cs.length + 1) := by omega
    rw [h1]
    simp [List.append_assoc]

/-- C3: with an empty suffix the rendered row ends with the last field's
trimmed text and no trailing padding; with a non-empty suffix the last field
is first padded to `widths[last]` display cells and the suffix appended. -/
theorem c3_last_field_padding (row0 : List (List Char)) (last : List Char)
    (widths : List Nat) (pre sep suff : List Char)
    (h : widths.length = row0.length + 1) :
    (formatRowGo (row0 ++ [last]) widths pre sep []
        = pre ++ formatCols widths sep 0 row0 ++
          (if row0.length ≠ 0 then sep else []) ++ last) ∧
    (suff ≠ [] →
      formatRowGo (row0 ++ [last]) widths pre sep suff
        = formatRowGo (row0 ++ [last]) widths pre sep [] ++
          List.replicate (widths.getD row0.length 0 - strWidth last) ' ' ++ suff) := by
  have hpad : ¬ (0 + row0.length + 1 < widths.length) := by omega
  constructor
  · unfold formatRowGo
    rw [formatCols_append_last widths sep row0 last 0]
    rw [if_neg hpad]
    simp [List.append_assoc]
  · intro hsuff
    unfold formatRowGo
    rw [if_neg hsuff, if_pos rfl]
    have hlast : (row0 ++ [last]).getD ((row0 ++ [last]).length - 1) [] = last := by
      simp only [List.length_append, List.length_singleton, Nat.add_sub_cancel]
      rw [List.getD_eq_getElem _ _ (by simp)]
      exact List.getElem_concat_length row0 last row0.length rfl (by simp)
    have hidx : widths.length - 1 = row0.length := by omega
    rw [hlast, hidx]
    simp [List.append_assoc]

/-- C3 witness: two columns, widths 1 and 1, suffix `"|"`. -/
theorem c3_last_field_padding_witness :
    (([1, 1] : List Nat).length = [[ 'a' ]].length + 1) ∧
    (( [ '|' ] : List Char) ≠ []) ∧
    ((formatRowGo ([[ 'a' ]] ++ [[ 'b' ]]) [1, 1] [] [' '] []
        = [] ++ formatCols [1, 1] [' '] 0 [[ 'a' ]] ++
          (if ([[ 'a' ]] : List (List Char)).length ≠ 0 then [' '] else []) ++ [ 'b' ]) ∧
     (( [ '|' ] : List Char) ≠ [] →
       formatRowGo ([[ 'a' ]] ++ [[ 'b' ]]) [1, 1] [] [' '] [ '|' ]
         = formatRowGo ([[ 'a' ]] ++ [[ 'b' ]]) [1, 1] [] [' '] [] ++
           List.replicate (([1, 1] : List Nat).getD ([[ 'a' ]] : List (List Char)).length 0 -
             strWidth [ 'b' ]) ' ' ++ [ '|' ])) :=
  ⟨by decide, by decide,
   c3_last_field_padding [[ 'a' ]] [ 'b' ] [1, 1] [] [' '] [ '|' ] (by decide)⟩

end Table


namespace Table

/-! ### C8: `Write` as split-into-lines plus per-line ingestion -/

/-- Fold the per-line ingestion over a list of already-split lines. -/
def ingestLines (st : WState) (ls : List (List Char)) : WState :=
  ls.foldl ingestStep st

/-- Split a byte sequence into its complete (newline-terminated) lines and the
retained tail after the last newline. -/
def specSplitFuel : Nat → List Char → List (List Char) × List Char
  | 0, b => ([], b)
  | n + 1, b =>
    match splitFirstNL b with
    | none => ([], b)
    | some (l, r) =>
      let p := specSplitFuel n r
      (l :: p.1, p.2)

def specSplit (b : List Char) : List (List Char) × List Char :=
  specSplitFuel (b.length + 1) b

theorem splitFirstNL_eq (b l r : List Char) (h : splitFirstNL b = some (l, r)) :
    b = l ++ '\n' :: r := by
  induction b generalizing l r with
  | nil => simp [splitFirstNL] at h
  | cons c cs ih =>
    simp only [splitFirstNL] at h
    by_cases hc : c = '\n'
    · rw [if_pos hc] at h
      cases h
      rw [hc]
      rfl
    · rw [if_neg hc] at h
      cases h' : splitFirstNL cs with
      | none => rw [h'] at h; simp at h
      | some p =>
        obtain ⟨l', r'⟩ := p
        rw [h'] at h
        have h2 : c :: l' = l ∧ r' = r := by simpa using h
        obtain ⟨h3, h4⟩ := h2
        subst h3
        subst h4
        rw [ih l' r' h']
        rfl

theorem specSplitFuel_congr (n : Nat) : ∀ (m : Nat) (b : List Char),
    b.length < n → b.length < m → specSplitFuel n b = specSplitFuel m b := by
  induction n with
  | zero => intro m b hn; omega
  | succ n ih =>
    intro m b hn hm
    cases m with
    | zero => omega
    | succ m =>
      simp only [specSplitFuel]
      cases h : splitFirstNL b with
      | none => rfl
      | some p =>
        obtain ⟨l, r⟩ := p
        have hb := splitFirstNL_eq b l r h
        have hlen : r.length < n ∧ r.length < m := by
          subst hb
          simp only [List.length_append, List.length_cons] at hn hm
          exact ⟨by omega, by omega⟩
        simp only
        rw [ih m r hlen.1 hlen.2]

theorem addLine_buf_comm (st : WState) (b l : List Char) (n : Nat) :
    addLine { st with buf := b } l n
      = ({ (addLine st l n).1 with buf := b }, (addLine st l n).2) := by
  cases st
  dsimp only [addLine]
  split_ifs <;> rfl

theorem recordErr_buf_comm (s : WState) (b : List Char) (o : Option RowErr) :
    recordErr ({ s with buf := b }, o) = { recordErr (s, o) with buf := b } := by
  cases s
  cases o with
  | none => rfl
  | some e =>
    dsimp only [recordErr]
    split_ifs <;> rfl

theorem ingestStep_buf_comm (st : WState) (b l : List Char) :
    ingestStep { st with buf := b } l = { ingestStep st l with buf := b } := by
  show recordErr (addLine
      { ({ st with lineNum := st.lineNum + 1 } : WState) with buf := b }
      (stripCR l) (st.lineNum + 1)) = _
  rw [addLine_buf_comm]
  rw [recordErr_buf_comm]
  rfl

theorem ingestStep_buf (st : WState) (l : List Char) :
    (ingestStep st l).buf = st.buf := by
  have h : ({ st with buf := st.buf } : WState) = st := rfl
  calc (ingestStep st l).buf
      = (ingestStep { st with buf := st.buf } l).buf := by rw [h]
    _ = ({ ingestStep st l with buf := st.buf } : WState).buf := by rw [ingestStep_buf_comm]
    _ = st.buf := rfl

theorem ingestLines_buf_comm (ls : List (List Char)) : ∀ (st : WState) (b : List Char),
    ingestLines { st with buf := b } ls = { ingestLines st ls with buf := b } := by
  induction ls with
  | nil => intro st b; rfl
  | cons l ls ih =>
    intro st b
    show ingestLines (ingestStep { st with buf := b } l) ls
      = { ingestLines (ingestStep st l) ls with buf := b }
    rw [ingestStep_buf_comm]
    exact ih (ingestStep st l) b

theorem processBuf_spec (n : Nat) : ∀ st : WState, st.buf.length < n →
    processBufFuel n st
      = { ingestLines st (specSplit st.buf).1 with buf := (specSplit st.buf).2 } := by
  induction n with
  | zero => intro st h; omega
  | succ n ih =>
    intro st h
    simp only [processBufFuel]
    cases hsp : splitFirstNL st.buf with
    | none =>
      have hspec : specSplit st.buf = ([], st.buf) := by
        unfold specSplit
        simp only [specSplitFuel]
        rw [hsp]
      rw [hspec]
      rfl
    | some p =>
      obtain ⟨l, r⟩ := p
      have hb := splitFirstNL_eq st.buf l r hsp
      have hr : r.length < n := by
        have := congrArg List.length hb
        simp only [List.length_append, List.length_cons] at this
        omega
      have hbufr : (ingestStep { st with buf := r } l).buf = r := by
        rw [ingestStep_buf]
      try dsimp only
      rw [ih (ingestStep { st with buf := r } l) (by rw [hbufr]; exact hr)]
      have hspec : specSplit st.buf = (l :: (specSplit r).1, (specSplit r).2) := by
        show specSplitFuel (st.buf.length + 1) st.buf = _
        conv_lhs => rw [specSplitFuel]
        rw [hsp]
        try dsimp only
        rw [specSplitFuel_congr st.buf.length (r.length + 1) r
          (by rw [hb]; simp only [List.length_append, List.length_cons]; omega)
          (Nat.lt_succ_self _)]
        rfl
      rw [hspec, hbufr]
      show { ingestLines (ingestStep { st with buf := r } l) (specSplit r).1 with
               buf := (specSplit r).2 }
        = { ingestLines st (l :: (specSplit r).1) with buf := (specSplit r).2 }
      rw [ingestStep_buf_comm]
      rw [ingestLines_buf_comm]
      rfl

/-- C8: `Write(p)` always returns `(len(p), nil)` — it never fails; it ingests
exactly the complete newline-terminated lines of the retained tail plus `p`
(each line passed through `stripCR` inside `ingestStep`) and keeps the bytes
after the last newline as the new tail. -/
theorem c8_write_total (st : WState) (p : List Char) :
    goWrite st p
      = ({ ingestLines { st with buf := st.buf ++ p } (specSplit (st.buf ++ p)).1 with
            buf := (specSplit (st.buf ++ p)).2 }, p.length, none) := by
  unfold goWrite
  simp only []
  rw [processBuf_spec (({ st with buf := st.buf ++ p } : WState).buf.length + 1)
    { st with buf := st.buf ++ p } (Nat.lt_succ_self _)]

end Table

namespace Table

/-! ### C6: reachable-state invariant -/

/-- Maximum measured width of column `i` over the buffered rows. -/
def colMax (rows : List (List (List Char))) (i : Nat) : Nat :=
  (rows.map (fun r => strWidth (r.getD i []))).foldr Nat.max 0

/-- The data-model invariant: once the width vector is established, every
buffered row has its length and every entry is the column maximum; before
that, no rows are buffered. -/
def Inv (st : WState) : Prop :=
  match st.widths with
  | none => st.rows = []
  | some ws =>
      st.rows ≠ [] ∧
      (∀ r ∈ st.rows, r.length = ws.length) ∧
      (∀ i, i < ws.length → ws.getD i 0 = colMax st.rows i)

/-- States reachable through the public operations of the root `Writer`. -/
inductive Reach : WState → Prop
  | init : Reach mkWriter
  | fmt (st : WState) (pre sep suff : List Char) : Reach st →
      Reach { st with pre := pre, sep := sep, suff := suff }
  | write (st : WState) (p : List Char) : Reach st → Reach (goWrite st p).1
  | flushStep (st : WState) : Reach st → Reach (flush st).1

theorem inv_of_fields (s s' : WState) (hw : s'.widths = s.widths)
    (hr : s'.rows = s.rows) (h : Inv s) : Inv s' := by
  unfold Inv at h ⊢
  rw [hw, hr]
  exact h

theorem foldr_max_init (l : List Nat) (x : Nat) :
    l.foldr Nat.max x = Nat.max (l.foldr Nat.max 0) x := by
  induction l with
  | nil => simp
  | cons a l ih => simp [List.foldr_cons, ih, Nat.max_assoc]

theorem colMax_append (rows : List (List (List Char))) (cols : List (List Char)) (i : Nat) :
    colMax (rows ++ [cols]) i = Nat.max (colMax rows i) (strWidth (cols.getD i [])) := by
  unfold colMax
  rw [List.map_append, List.foldr_append]
  have h1 : List.foldr Nat.max 0 (List.map (fun r => strWidth (r.getD i [])) [cols])
      = strWidth (cols.getD i []) := by simp
  rw [h1, foldr_max_init]

theorem zipWith_max_getD (a b : List Nat) (i : Nat) (hab : a.length = b.length)
    (hi : i < a.length) :
    (List.zipWith Nat.max a b).getD i 0 = Nat.max (a.getD i 0) (b.getD i 0) := by
  rw [List.getD_eq_getElem a 0 hi, List.getD_eq_getElem b 0 (by omega),
      List.getD_eq_getElem _ 0 (by rw [List.length_zipWith]; omega)]
  exact List.getElem_zipWith

theorem inv_first_widths (cols : List (List Char)) (i : Nat) (hi : i < cols.length) :
    (List.zipWith Nat.max (List.replicate cols.length 0) (cols.map strWidth)).getD i 0
      = colMax [cols] i := by
  rw [zipWith_max_getD _ _ i (by simp) (by simpa using hi)]
  have hz : (List.replicate cols.length 0).getD i 0 = 0 := by
    rw [List.getD_eq_getElem _ 0 (by simpa using hi)]
    simp
  have hcmax : colMax [cols] i = strWidth (cols.getD i []) := by
    unfold colMax
    simp
  have hmap : (cols.map strWidth).getD i 0 = strWidth (cols.getD i []) := by
    rw [List.getD_eq_getElem _ 0 (by simpa using hi), List.getD_eq_getElem _ [] hi]
    simp
  rw [hz, hcmax, hmap]
  exact Nat.max_eq_right (Nat.zero_le _)

theorem inv_merge_widths (ws : List Nat) (cols : List (List Char))
    (hc : cols.length = ws.length) (rows : List (List (List Char)))
    (hcol : ∀ i, i < ws.length → ws.getD i 0 = colMax rows i) (i : Nat)
    (hi : i < ws.length) :
    (List.zipWith Nat.max ws (cols.map strWidth)).getD i 0
      = colMax (rows ++ [cols]) i := by
  rw [zipWith_max_getD _ _ i (by rw [List.length_map, hc]) hi]
  rw [colMax_append, hcol i hi]
  have hmap : (cols.map strWidth).getD i 0 = strWidth (cols.getD i []) := by
    rw [List.getD_eq_getElem _ 0 (by rw [List.length_map]; omega),
        List.getD_eq_getElem _ [] (by omega)]
    simp
  rw [hmap]

theorem addLine_inv (st : WState) (line : List Char) (n : Nat) (h : Inv st) :
    Inv (addLine st line n).1 := by
  rcases hw : st.widths with _ | ws
  · -- first line of the batch establishes the widths
    have hrows : st.rows = [] := by unfold Inv at h; rw [hw] at h; exact h
    have hres : (addLine st line n).1
        = { st with
            widths := some (List.zipWith Nat.max
              (List.replicate ((splitOnTab line).map trimSpace).length 0)
              (((splitOnTab line).map trimSpace).map strWidth)),
            rows := st.rows ++ [(splitOnTab line).map trimSpace] } := by
      unfold addLine
      rw [hw]
      simp only [Option.getD_none, List.length_replicate]
      rw [if_neg (by simp)]
    rw [hres]
    unfold Inv
    simp only [hrows, List.nil_append]
    refine ⟨by simp, ?_, ?_⟩
    · intro r hr
      rw [List.mem_singleton] at hr
      subst hr
      simp [List.length_zipWith]
    · intro i hi
      have hi' : i < ((splitOnTab line).map trimSpace).length := by
        rw [List.length_zipWith, List.length_replicate] at hi
        exact lt_of_lt_of_le hi (min_le_left _ _)
      exact inv_first_widths _ i hi'
  · -- widths already established
    have hinv : st.rows ≠ [] ∧ (∀ r ∈ st.rows, r.length = ws.length) ∧
        (∀ i, i < ws.length → ws.getD i 0 = colMax st.rows i) := by
      unfold Inv at h
      rw [hw] at h
      exact h
    obtain ⟨hne, hlen, hcol⟩ := hinv
    by_cases hc : ((splitOnTab line).map trimSpace).length = ws.length
    · -- matching row: widths merge, row appended
      have hres : (addLine st line n).1
          = { st with
              widths := some (List.zipWith Nat.max ws
                (((splitOnTab line).map trimSpace).map strWidth)),
              rows := st.rows ++ [(splitOnTab line).map trimSpace] } := by
        unfold addLine
        rw [hw]
        simp only [Option.getD_some]
        rw [if_neg (by simpa using hc)]
      rw [hres]
      unfold Inv
      refine ⟨by simp, ?_, ?_⟩
      · intro r hr
        rw [List.mem_append, List.mem_singleton] at hr
        have hc' : (splitOnTab line).length = ws.length := by simpa using hc
        simp only [List.length_zipWith, List.length_map, hc', Nat.min_self]
        cases hr with
        | inl hr => exact hlen r hr
        | inr hr => rw [hr]; exact hc
      · intro i hi
        have hi' : i < ws.length := by
          rw [List.length_zipWith] at hi
          exact lt_of_lt_of_le hi (min_le_left _ _)
        exact inv_merge_widths ws _ hc st.rows hcol i hi'
    · -- mismatching row: the state is unchanged
      have hres : (addLine st line n).1 = { st with widths := some ws } := by
        unfold addLine
        rw [hw]
        simp only [Option.getD_some]
        rw [if_pos (by simpa using hc)]
      have hst : ({ st with widths := some ws } : WState) = st := by
        cases st
        simp_all
      rw [hres, hst]
      exact h

theorem ingestStep_inv (st : WState) (l : List Char) (h : Inv st) :
    Inv (ingestStep st l) := by
  unfold ingestStep
  have h1 : Inv (addLine { st with lineNum := st.lineNum + 1 } (stripCR l)
      (st.lineNum + 1)).1 :=
    addLine_inv _ _ _ (inv_of_fields st _ rfl rfl h)
  unfold recordErr
  split
  · split
    · exact inv_of_fields _ _ rfl rfl h1
    · exact h1
  · exact h1

theorem processBufFuel_inv (n : Nat) : ∀ st : WState, Inv st →
    Inv (processBufFuel n st) := by
  induction n with
  | zero => intro st h; exact h
  | succ n ih =>
    intro st h
    simp only [processBufFuel]
    cases hsp : splitFirstNL st.buf with
    | none => exact h
    | some p =>
      obtain ⟨l, r⟩ := p
      try dsimp only
      exact ih _ (ingestStep_inv _ _ (inv_of_fields st _ rfl rfl h))

theorem reach_inv (st : WState) (h : Reach st) : Inv st := by
  induction h with
  | init => exact rfl
  | fmt st pre sep suff hst ih => exact inv_of_fields st _ rfl rfl ih
  | write st p hst ih => exact processBufFuel_inv _ _ (inv_of_fields st _ rfl rfl ih)
  | flushStep st hst ih =>
    rw [flush_fst]
    exact rfl

/-- C6: at every reachable state, every buffered row's field count equals the
width-vector length and every width entry is the column maximum over the
buffered rows; `addLine` on a line with a mismatching field count returns the
Row Error and leaves the state (rows and widths included) unchanged. -/
theorem c6_batch_invariant (st : WState) (h : Reach st) (line : List Char) (n : Nat)
    (ws : List Nat) (hw : st.widths = some ws)
    (hne : (splitOnTab line).length ≠ ws.length) :
    Inv st ∧ addLine st line n = (st, some ⟨ws.length, (splitOnTab line).length, n⟩) :=
  ⟨reach_inv st h, addLine_mismatch st line n ws hw hne⟩

/-- C6 witness: the state reached by writing `"x\n"` to a fresh writer, probed
with the 2-field line `"a\tb"`. -/
theorem c6_batch_invariant_witness :
    Inv (goWrite mkWriter ( "x\n".toList)).1 ∧
    addLine (goWrite mkWriter ( "x\n".toList)).1 ( "a\tb".toList) 2
      = ((goWrite mkWriter ( "x\n".toList)).1, some ⟨1, 2, 2⟩) := by
  have h := c6_batch_invariant (goWrite mkWriter ( "x\n".toList)).1
    (Reach.write mkWriter ( "x\n".toList) Reach.init) ( "a\tb".toList) 2 [1]
    (by decide) (by decide)
  exact ⟨h.1, h.2.trans (by decide)⟩

end Table

namespace Table

/-! ### C7: character-class facts and matcher lemmas -/

theorem belChar_toNat : belChar.toNat = 7 := by decide

theorem final_not_cls1 (c : Char) (h : isFinalByte c = true) : isCls1 c = false := by
  cases hb : isCls1 c with
  | false => rfl
  | true =>
    exfalso
    simp only [isCls1, Bool.or_eq_true, decide_eq_true_eq] at hb
    simp only [isFinalByte, isDigitC, Bool.or_eq_true, Bool.and_eq_true,
      decide_eq_true_eq] at h
    omega

theorem digit_not_cls1 (c : Char) (h : isDigitC c = true) : isCls1 c = false := by
  cases hb : isCls1 c with
  | false => rfl
  | true =>
    exfalso
    simp only [isCls1, Bool.or_eq_true, decide_eq_true_eq] at hb
    simp only [isDigitC, Bool.and_eq_true, decide_eq_true_eq] at h
    omega

theorem final_ne_semi (c : Char) (h : isFinalByte c = true) : ¬ c.toNat = 0x3B := by
  simp only [isFinalByte, isDigitC, Bool.or_eq_true, Bool.and_eq_true,
    decide_eq_true_eq] at h
  omega

theorem final_ne_bel (c : Char) (h : isFinalByte c = true) : c.toNat ≠ 7 := by
  simp only [isFinalByte, isDigitC, Bool.or_eq_true, Bool.and_eq_true,
    decide_eq_true_eq] at h
  omega

theorem cls1_ne_bel (c : Char) (h : isCls1 c = true) : c.toNat ≠ 7 := by
  simp only [isCls1, Bool.or_eq_true, decide_eq_true_eq] at h
  omega

theorem digit_ne_bel (c : Char) (h : isDigitC c = true) : c.toNat ≠ 7 := by
  simp only [isDigitC, Bool.and_eq_true, decide_eq_true_eq] at h
  omega

theorem intro_ne_bel (c : Char) (h : isCsiIntro c = true) : c.toNat ≠ 7 := by
  simp only [isCsiIntro, Bool.or_eq_true, decide_eq_true_eq] at h
  omega

theorem semi_not_digit : isDigitC (Char.ofNat 0x3B) = false := by decide

theorem takeWhile_all_append (p : Char → Bool) (xs ys : List Char)
    (h : ∀ c ∈ xs, p c = true) :
    (xs ++ ys).takeWhile p = xs ++ ys.takeWhile p := by
  induction xs with
  | nil => simp
  | cons c cs ih =>
    rw [List.cons_append, List.takeWhile_cons_of_pos (h c (by simp)),
      ih (fun c hc => h c (by simp [hc]))]
    rfl

/-- The flattened parameter blocks begin with a semicolon (or are empty, in
which case the final byte follows), so a digit scan stops immediately. -/
theorem takeWhile_digit_flat (blocks : List (List Char)) (f : Char) (b : List Char)
    (hfd : isDigitC f = false) :
    (((blocks.map (fun g => (Char.ofNat 0x3B) :: g)).flatten) ++ f :: b).takeWhile isDigitC
      = [] := by
  cases blocks with
  | nil =>
    simp only [List.map_nil, List.flatten_nil, List.nil_append]
    exact List.takeWhile_cons_of_neg (by simp [hfd])
  | cons g bs =>
    simp only [List.map_cons, List.flatten_cons, List.cons_append]
    exact List.takeWhile_cons_of_neg (by simp [semi_not_digit])

theorem flat_len_ge (blocks : List (List Char)) :
    blocks.length ≤ ((blocks.map (fun g => (Char.ofNat 0x3B) :: g)).flatten).length := by
  induction blocks with
  | nil => simp
  | cons g bs ih =>
    simp only [List.map_cons, List.flatten_cons, List.length_append, List.length_cons]
    omega

theorem mem_starClsCands (p : Char → Bool) (s r : List Char)
    (h : r ∈ starClsCands p s) : ∃ k, r = s.drop k := by
  unfold starClsCands at h
  simp only [List.mem_map, List.mem_range] at h
  obtain ⟨j, hj, hr⟩ := h
  exact ⟨_, hr.symm⟩

theorem mem_semiAlnumStar (n : Nat) : ∀ s r : List Char,
    r ∈ semiAlnumStar n s → ∃ k, r = s.drop k := by
  induction n with
  | zero =>
    intro s r h
    simp only [semiAlnumStar, List.mem_singleton] at h
    exact ⟨0, by simp [h]⟩
  | succ n ih =>
    intro s r h
    unfold semiAlnumStar at h
    cases s with
    | nil =>
      simp only [List.mem_singleton] at h
      exact ⟨0, by simp [h]⟩
    | cons c rest =>
      dsimp only at h
      by_cases hc : c.toNat = 0x3B
      · rw [if_pos hc, List.mem_append] at h
        cases h with
        | inr h =>
          simp only [List.mem_singleton] at h
          exact ⟨0, by simp [h]⟩
        | inl h =>
          rw [List.mem_flatten] at h
          obtain ⟨l, hl, hr⟩ := h
          rw [List.mem_map] at hl
          obtain ⟨r1, hr1, hleq⟩ := hl
          subst hleq
          obtain ⟨k1, hk1⟩ := mem_starClsCands _ _ _ hr1
          subst hk1
          obtain ⟨k2, hk2⟩ := ih _ _ hr
          subst hk2
          refine ⟨k1 + k2 + 1, ?_⟩
          rw [List.drop_drop, List.drop_succ_cons]
      · rw [if_neg hc] at h
        simp only [List.mem_singleton] at h
        exact ⟨0, by simp [h]⟩

/-- With no bell byte anywhere in sight, the bell-terminated alternative of
the pattern has no successful parse. -/
theorem altA_nil (s : List Char) (h : ∀ c ∈ s, c.toNat ≠ 7) : altA s = [] := by
  unfold altA
  have hmatch : (match s with
      | c :: rest => if c = belChar then [rest] else []
      | [] => ([] : List (List Char))) = [] := by
    cases s with
    | nil => rfl
    | cons c rest =>
      try dsimp only
      rw [if_neg]
      intro hc
      exact h c (by simp) (by rw [hc, belChar_toNat])
  rw [hmatch, List.append_nil]
  rw [List.flatten_eq_nil_iff]
  intro l hl
  rw [List.mem_map] at hl
  obtain ⟨r, hr, hleq⟩ := hl
  subst hleq
  rw [List.filterMap_eq_nil_iff]
  intro t ht
  obtain ⟨k1, hk1⟩ := mem_starClsCands _ _ _ hr
  subst hk1
  obtain ⟨k2, hk2⟩ := mem_semiAlnumStar _ _ _ ht
  subst hk2
  cases hcase : (s.drop k1).drop k2 with
  | nil => rfl
  | cons c rest =>
    try dsimp only
    rw [if_neg]
    intro hc
    have hmem : c ∈ s := by
      have h1 : c ∈ (s.drop k1).drop k2 := by rw [hcase]; simp
      exact List.drop_subset _ _ (List.drop_subset _ _ h1)
    exact h c hmem (by rw [hc, belChar_toNat])

end Table

namespace Table

/-- The greedy first parse of `(?:;\d{0,4})*` on well-formed parameter blocks
(each at most four digits) consumes exactly the blocks and stops at the final
byte. -/
theorem semiDigitsStar_cons (blocks : List (List Char))
    (hb : ∀ g ∈ blocks, (∀ c ∈ g, isDigitC c = true) ∧ g.length ≤ 4)
    (f : Char) (hfd : isDigitC f = false) (hfs : ¬ f.toNat = 0x3B) (b : List Char) :
    ∀ n : Nat, blocks.length ≤ n →
    ∃ t, semiDigitsStar n
        (((blocks.map (fun g => (Char.ofNat 0x3B) :: g)).flatten) ++ f :: b)
      = (f :: b) :: t := by
  induction blocks with
  | nil =>
    intro n hn
    refine ⟨[], ?_⟩
    simp only [List.map_nil, List.flatten_nil, List.nil_append]
    cases n with
    | zero => rfl
    | succ n =>
      unfold semiDigitsStar
      try dsimp only
      rw [if_neg hfs]
  | cons g bs ih =>
    intro n hn
    cases n with
    | zero =>
      exfalso
      simp only [List.length_cons] at hn
      omega
    | succ n =>
      have hg := hb g (by simp)
      have hbs : ∀ g' ∈ bs, (∀ c ∈ g', isDigitC c = true) ∧ g'.length ≤ 4 :=
        fun g' hg' => hb g' (by simp [hg'])
      obtain ⟨t1, ht1⟩ := ih hbs n (by simp only [List.length_cons] at hn; omega)
      simp only [List.map_cons, List.flatten_cons, List.cons_append, List.append_assoc]
      unfold semiDigitsStar
      try dsimp only
      rw [if_pos (by decide)]
      rw [takeWhile_all_append _ _ _ hg.1, takeWhile_digit_flat bs f b hfd,
        List.append_nil, Nat.min_eq_right hg.2]
      rw [List.range_succ_eq_map, List.map_cons]
      try dsimp only
      rw [Nat.sub_zero, List.drop_left, ht1, List.flatten_cons]
      simp only [List.cons_append]
      exact ⟨_, rfl⟩

/-- The second alternative at a bare final byte: the optional digit group is
absent and the final byte matches. -/
theorem altB_cons_empty (f : Char) (b : List Char) (hf : isFinalByte f = true)
    (hfd : isDigitC f = false) :
    altB (f :: b) = [b] := by
  unfold altB
  rw [List.takeWhile_cons_of_neg (by simp [hfd])]
  simp only [List.length_nil, Nat.min_zero, List.range_zero, List.map_nil,
    List.flatten_nil, List.nil_append]
  unfold finalCheck
  try dsimp only
  rw [if_pos hf]

/-- The second alternative on a leading digit group followed by well-formed
parameter blocks and the final byte: the preferred parse consumes everything
up to and including the final byte. -/
theorem altB_cons_params (g1 : List Char) (blocks : List (List Char)) (f : Char)
    (b : List Char)
    (hg1d : ∀ c ∈ g1, isDigitC c = true) (hg1l : g1.length ≤ 4) (hg1n : 1 ≤ g1.length)
    (hb : ∀ g ∈ blocks, (∀ c ∈ g, isDigitC c = true) ∧ g.length ≤ 4)
    (hf : isFinalByte f = true) (hfd : isDigitC f = false) :
    ∃ t, altB (g1 ++ (((blocks.map (fun g => (Char.ofNat 0x3B) :: g)).flatten) ++ f :: b))
      = b :: t := by
  unfold altB
  rw [takeWhile_all_append _ _ _ hg1d, takeWhile_digit_flat blocks f b hfd,
    List.append_nil, Nat.min_eq_right hg1l]
  obtain ⟨k, hk⟩ : ∃ k, g1.length = k + 1 := ⟨g1.length - 1, by omega⟩
  rw [hk]
  try dsimp only
  rw [List.range_succ_eq_map, List.map_cons]
  try dsimp only
  rw [Nat.sub_zero, ← hk, List.drop_left]
  obtain ⟨t1, ht1⟩ := semiDigitsStar_cons blocks hb f hfd (final_ne_semi f hf) b
    ((g1 ++ (((blocks.map (fun g => (Char.ofNat 0x3B) :: g)).flatten) ++ f :: b)).length)
    (by
      simp only [List.length_append, List.length_cons]
      have := flat_len_ge blocks
      omega)
  rw [ht1, List.map_cons, List.flatten_cons]
  have hfc : finalCheck (f :: b) = [b] := by
    unfold finalCheck
    try dsimp only
    rw [if_pos hf]
  rw [hfc]
  simp only [List.cons_append, List.append_assoc]
  exact ⟨_, rfl⟩

end Table

namespace Table

/-- Well-formed CSI parameter text for the pattern's second alternative: empty,
or a leading digit group of one to four digits followed by semicolon-separated
groups of at most four digits each. -/
def EscBody (body : List Char) : Prop :=
  body = [] ∨
  ∃ (g1 : List Char) (blocks : List (List Char)),
    ((∀ c ∈ g1, isDigitC c = true) ∧ g1.length ≤ 4) ∧ 1 ≤ g1.length ∧
    (∀ g ∈ blocks, (∀ c ∈ g, isDigitC c = true) ∧ g.length ≤ 4) ∧
    body = g1 ++ ((blocks.map (fun g => (Char.ofNat 0x3B) :: g)).flatten)

theorem escBody_chars (body : List Char) (h : EscBody body) :
    ∀ c ∈ body, isDigitC c = true ∨ c.toNat = 0x3B := by
  cases h with
  | inl h =>
    subst h
    intro c hc
    cases hc
  | inr h =>
    obtain ⟨g1, blocks, hg1, hn1, hbl, hbeq⟩ := h
    subst hbeq
    intro c hc
    rw [List.mem_append] at hc
    cases hc with
    | inl hc => exact Or.inl (hg1.1 c hc)
    | inr hc =>
      rw [List.mem_flatten] at hc
      obtain ⟨l, hl, hcl⟩ := hc
      rw [List.mem_map] at hl
      obtain ⟨g, hg, hleq⟩ := hl
      subst hleq
      rw [List.mem_cons] at hcl
      cases hcl with
      | inl hcl => exact Or.inr (by rw [hcl]; decide)
      | inr hcl => exact Or.inl ((hbl g hg).1 c hcl)

/-- The preferred leftmost-first match at a well-formed CSI escape consumes
exactly the escape, provided no bell byte occurs afterwards. -/
theorem matchEsc_esc (intro : Char) (cl body : List Char) (f : Char) (b : List Char)
    (hi : isCsiIntro intro = true)
    (hcl : ∀ c ∈ cl, isCls1 c = true)
    (hbody : EscBody body)
    (hf : isFinalByte f = true) (hfd : isDigitC f = false)
    (hnb : ∀ c ∈ body ++ f :: b, ¬ c.toNat = 7) :
    matchEsc (intro :: (cl ++ (body ++ f :: b))) = some b := by
  have h0 : (body ++ f :: b).takeWhile isCls1 = [] := by
    cases hbody with
    | inl h =>
      subst h
      simp only [List.nil_append]
      exact List.takeWhile_cons_of_neg (by simp [final_not_cls1 f hf])
    | inr h =>
      obtain ⟨g1, blocks, hg1, hn1, hbl, hbeq⟩ := h
      subst hbeq
      cases g1 with
      | nil => exact absurd hn1 (by simp)
      | cons d g1 =>
        simp only [List.cons_append, List.append_assoc]
        exact List.takeWhile_cons_of_neg
          (by simp [digit_not_cls1 d (hg1.1 d (by simp))])
  have htw : (cl ++ (body ++ f :: b)).takeWhile isCls1 = cl := by
    rw [takeWhile_all_append _ _ _ hcl, h0, List.append_nil]
  unfold matchEsc
  try dsimp only
  rw [if_pos hi]
  unfold starClsCands
  try dsimp only
  rw [htw]
  rw [List.range_succ_eq_map, List.map_cons]
  try dsimp only
  rw [Nat.sub_zero, List.drop_left]
  rw [List.map_cons, List.flatten_cons]
  rw [altA_nil _ hnb, List.nil_append]
  have hB : ∃ t, altB (body ++ f :: b) = b :: t := by
    cases hbody with
    | inl h =>
      subst h
      refine ⟨[], ?_⟩
      simp only [List.nil_append]
      exact altB_cons_empty f b hf hfd
    | inr h =>
      obtain ⟨g1, blocks, hg1, hn1, hbl, hbeq⟩ := h
      subst hbeq
      rw [List.append_assoc]
      exact altB_cons_params g1 blocks f b hg1.1 hg1.2 hn1 hbl hf hfd
  obtain ⟨t, hB⟩ := hB
  rw [hB]
  rfl

/-- Stripping is the identity on text free of escape introducers. -/
theorem stripAnsiFuel_plain (s : List Char) (h : ∀ c ∈ s, isCsiIntro c = false) :
    ∀ n : Nat, stripAnsiFuel n s = s := by
  induction s with
  | nil => intro n; cases n <;> rfl
  | cons c cs ih =>
    intro n
    cases n with
    | zero => rfl
    | succ n =>
      unfold stripAnsiFuel
      have hme : matchEsc (c :: cs) = none := by
        unfold matchEsc
        try dsimp only
        rw [if_neg]
        rw [h c (by simp)]
        simp
      rw [hme]
      try dsimp only
      rw [ih (fun c hc => h c (by simp [hc])) n]

/-- A string interleaving plain text with well-formed CSI escapes, together
with its visible text. -/
inductive Mixed : List Char → List Char → Prop
  | nil : Mixed [] []
  | txt (c : Char) (s v : List Char) (h1 : ¬ c.toNat = 0x1B) (h2 : ¬ c.toNat = 0x9B)
      (h3 : ¬ c.toNat = 7) : Mixed s v → Mixed (c :: s) (c :: v)
  | esc (intro : Char) (cl body : List Char) (f : Char) (s v : List Char)
      (hi : isCsiIntro intro = true)
      (hcl : ∀ c ∈ cl, isCls1 c = true)
      (hbody : EscBody body)
      (hf : isFinalByte f = true) (hfd : isDigitC f = false) :
      Mixed s v → Mixed (intro :: (cl ++ (body ++ f :: s))) v

theorem mixed_noBel (s v : List Char) (h : Mixed s v) : ∀ c ∈ s, ¬ c.toNat = 7 := by
  induction h with
  | nil => intro c hc; cases hc
  | txt c s v h1 h2 h3 hm ih =>
    intro d hd
    rw [List.mem_cons] at hd
    cases hd with
    | inl hd => subst hd; exact h3
    | inr hd => exact ih d hd
  | esc intro cl body f s v hi hcl hbody hf hfd hm ih =>
    intro d hd
    rw [List.mem_cons] at hd
    cases hd with
    | inl hd => subst hd; exact intro_ne_bel _ hi
    | inr hd =>
      rw [List.mem_append, List.mem_append] at hd
      cases hd with
      | inl hd => exact cls1_ne_bel d (hcl d hd)
      | inr hd =>
        cases hd with
        | inl hd =>
          cases escBody_chars body hbody d hd with
          | inl h' => exact digit_ne_bel d h'
          | inr h' => omega
        | inr hd =>
          rw [List.mem_cons] at hd
          cases hd with
          | inl hd => subst hd; exact final_ne_bel _ hf
          | inr hd => exact ih d hd

theorem mixed_plain (s v : List Char) (h : Mixed s v) :
    ∀ c ∈ v, isCsiIntro c = false := by
  induction h with
  | nil => intro c hc; cases hc
  | txt c s v h1 h2 h3 hm ih =>
    intro d hd
    rw [List.mem_cons] at hd
    cases hd with
    | inl hd =>
      subst hd
      cases hb : isCsiIntro d with
      | false => rfl
      | true =>
        exfalso
        simp only [isCsiIntro, Bool.or_eq_true, decide_eq_true_eq] at hb
        omega
    | inr hd => exact ih d hd
  | esc intro cl body f s v hi hcl hbody hf hfd hm ih => exact ih

/-- Running the stripper on a mixed string keeps exactly its visible text. -/
theorem mixed_strip (s v : List Char) (h : Mixed s v) :
    ∀ n : Nat, s.length < n → stripAnsiFuel n s = v := by
  induction h with
  | nil =>
    intro n hn
    cases n with
    | zero => omega
    | succ n => rfl
  | txt c s v h1 h2 h3 hm ih =>
    intro n hn
    cases n with
    | zero => omega
    | succ n =>
      unfold stripAnsiFuel
      have hme : matchEsc (c :: s) = none := by
        unfold matchEsc
        try dsimp only
        rw [if_neg]
        simp only [isCsiIntro, Bool.or_eq_true, decide_eq_true_eq]
        omega
      rw [hme]
      try dsimp only
      rw [ih n (by simp only [List.length_cons] at hn; omega)]
  | esc intro cl body f s v hi hcl hbody hf hfd hm ih =>
    intro n hn
    cases n with
    | zero => omega
    | succ n =>
      unfold stripAnsiFuel
      have hnb : ∀ c ∈ body ++ f :: s, ¬ c.toNat = 7 := by
        intro c hc
        rw [List.mem_append] at hc
        cases hc with
        | inl hc =>
          cases escBody_chars body hbody c hc with
          | inl h' => exact digit_ne_bel c h'
          | inr h' => omega
        | inr hc =>
          rw [List.mem_cons] at hc
          cases hc with
          | inl hc' => subst hc'; exact final_ne_bel _ hf
          | inr hc' => exact mixed_noBel s v hm c hc'
      rw [matchEsc_esc intro cl body f s hi hcl hbody hf hfd hnb]
      try dsimp only
      apply ih
      simp only [List.length_cons, List.length_append] at hn
      omega

/-- C7 (amended): for every string interleaving bell-free plain text with
well-formed CSI escape sequences whose parameter digit groups have at most
four digits each and whose final byte is a non-digit in the pattern's class,
the measured width equals the measured width of the visible text alone — such
escape sequences contribute zero.  (A parameter group of five or more digits
is only partially stripped, see the counterexample.) -/
theorem c7_escape_zero_width (s v : List Char) (h : Mixed s v) :
    strWidth s = strWidth v := by
  have h1 : stripAnsiFuel (s.length + 1) s = v :=
    mixed_strip s v h (s.length + 1) (Nat.lt_succ_self _)
  have h2 : stripAnsiFuel (v.length + 1) v = v :=
    stripAnsiFuel_plain v (mixed_plain s v h) (v.length + 1)
  unfold strWidth stripAnsi
  rw [h1, h2]

/-- C7 amended, witness: the SGR-coloured text `"\x1b[31mab"` measures exactly
like the plain text `"ab"`. -/
theorem c7_escape_zero_width_witness :
    Mixed ( "\x1b[31mab".toList) ( "ab".toList) ∧
    strWidth ( "\x1b[31mab".toList) = strWidth ( "ab".toList) := by
  have h0 : Mixed ( "ab".toList) ( "ab".toList) :=
    Mixed.txt 'a' _ _ (by decide) (by decide) (by decide)
      (Mixed.txt 'b' _ _ (by decide) (by decide) (by decide) Mixed.nil)
  have hm : Mixed ( "\x1b[31mab".toList) ( "ab".toList) :=
    Mixed.esc '\x1b' [ '[' ] [ '3', '1' ] 'm' ( "ab".toList) ( "ab".toList)
      (by decide) (by decide)
      (Or.inr ⟨[ '3', '1' ], [], ⟨by decide, by decide⟩, by decide,
        (by intro g hg; cases hg), by decide⟩)
      (by decide) (by decide) h0
  exact ⟨hm, c7_escape_zero_width _ _ hm⟩

end Table
